import Mathlib

/-!
# Verification of the sinuous bundle matrix compiler and post-processing pipeline

Shallow embedding of `src/unnamed/part_000` (the rollup bundle configuration:
format registry, naming convention, matrix expansion `mk`, config generator
`makeBundleConfigs`, and the ESM import-path resolver
`pluginReplaceImportsESM`), together with an executable model of the ordered
text-patch engine (`rollup-plugin-replace.js`, whose source is not part of the
repository snapshot; its application semantics is modelled from the spec,
section 4.4) instantiated with the concrete rewrite rules that appear in the
source.

Machine integers do not occur; all data is strings, lists and options.
JavaScript `undefined`-able fields are `Option`; object spread defaulting
(`{ sourcemap: true, ...restOutput }`) becomes `Option.getD`.
-/

/-- The supported rollup module formats (`bundleFormatVariables`,
src/unnamed/part_000 lines 16-24). -/
inductive ModuleFormat
  | cjs
  | esm
  | iife
  | umd
deriving DecidableEq, Repr

open ModuleFormat

/-- The string value of each format variable (`'cjs'`, `'esm'`, `'iife'`,
`'umd'`). -/
def fmtStr : ModuleFormat → String
  | cjs => "cjs"
  | esm => "esm"
  | iife => "iife"
  | umd => "umd"

/-- Format extensions (`ext`, src/unnamed/part_000 lines 27-32). -/
def ext : ModuleFormat → String
  | cjs => "js"
  | esm => "js"
  | iife => "min.js"
  | umd => "js"

/-- `const src = 'packages/sinuous'` (line 34). -/
def src : String := "packages/sinuous"

/-- Output path naming convention
(`dest = (name, format) => ...` , line 35). -/
def dest (name : String) (format : ModuleFormat) : String :=
  src ++ "/dist/" ++ fmtStr format ++ "/" ++ name ++ "." ++ ext format

/-! ## Node `path` collaborator

`pluginReplaceImportsESM` calls `path.basename` and `path.relative` from
Node's `path` module (an external library, embedded here following its
documented POSIX semantics for the clean relative paths this code passes:
no `.`/`..` segments, no duplicate or trailing slashes). -/

/-- Split a character list on `'/'` (always returns at least one segment). -/
def splitSlash : List Char → List (List Char)
  | [] => [[]]
  | c :: cs =>
    match splitSlash cs with
    | [] => [[c]]
    | s :: ss => if c = '/' then [] :: s :: ss else (c :: s) :: ss

/-- Join segments with `'/'`. -/
def joinSlash : List (List Char) → List Char
  | [] => []
  | [s] => s
  | s :: ss => s ++ '/' :: joinSlash ss

/-- `path.basename`: the final path segment. -/
def basename (p : String) : String :=
  ⟨(splitSlash p.data).getLastD []⟩

/-- Relative-path arithmetic on segment lists: strip the common leading
segments, go up once per remaining segment of `f`, then down into `t`. -/
def relSegs : List (List Char) → List (List Char) → List (List Char)
  | [], t => t
  | f, [] => f.map fun _ => ['.', '.']
  | a :: f, b :: t =>
    if a = b then relSegs f t
    else ((a :: f).map fun _ => ['.', '.']) ++ b :: t

/-- `path.relative(from, to)` for clean relative POSIX paths: both are
resolved against the same working directory, so the result is the
common-segment-stripping computation of `relSegs`. -/
def pathRelative (f t : String) : String :=
  ⟨joinSlash (relSegs (splitSlash f.data) (splitSlash t.data))⟩

/-- JavaScript `String.prototype.replace` with a string search value:
replace only the first occurrence. -/
def replFirst (pat rep : List Char) : List Char → List Char
  | [] => []
  | c :: cs =>
    if pat.isPrefixOf (c :: cs) then rep ++ (c :: cs).drop pat.length
    else c :: replFirst pat rep cs

/-- The rewritten import path computed for one external dependency inside
`pluginReplaceImportsESM` (src/unnamed/part_000 lines 309-311):
`path.relative(file, dest(path.basename(dep), format))
   .replace('..', '.').replace('./..', '..')`. -/
def resolveDepPath (file : String) (format : ModuleFormat) (dep : String) : String :=
  ⟨replFirst ['.', '/', '.', '.'] ['.', '.']
    (replFirst ['.', '.'] ['.']
      (pathRelative file (dest (basename dep) format)).data)⟩

example : resolveDepPath (dest "hydrate" esm) esm "sinuous" = "./sinuous.js" := by decide
example : resolveDepPath (dest "map/mini" esm) esm "sinuous" = "../sinuous.js" := by decide

/-! ## Configs and the bundle matrix compiler

JavaScript objects are embedded as structures; fields a snippet may omit are
`Option`s.  The source field named `external` is rendered here as `extDeps`.
-/

/-- The `output` part of a config snippet as the descriptors declare it
(`name`, `sourcemap`, `extend`; none declares `file`, `format` or
`plugins`). -/
structure OutputSnippet where
  name : Option String := none
  sourcemap : Option Bool := none
  extend : Option Bool := none
deriving DecidableEq, Repr

/-- One multi-format config snippet: the third argument of `mk`
(src/unnamed/part_000 line 155), i.e. a package descriptor minus
name and formats.  `extDeps` is the source's `external` list. -/
structure ConfigSnippet where
  input : String
  extDeps : Option (List String) := none
  output : Option OutputSnippet := none
deriving DecidableEq, Repr

/-- An import-rewrite rule produced by `pluginReplaceImportsESM`: it
searches for the literal `from"<dep>"` and rewrites it to
`from"<depPath>"`. -/
structure ImportRule where
  dep : String
  depPath : String
deriving DecidableEq, Repr

/-- The plugins the config generator wires up, as tags (external
collaborators such as terser are opaque; the replace passes carry the
data that parameterises them). -/
inductive Plugin
  | nodeResolve
  | babel
  | bundleSize
  | terser
  | replaceImportsESM (rules : List ImportRule) (sourcemap : Bool)
  | constToLetPass
  | letMergePass
  | umdArgsDefinePass
  | umdApplyWrapperPass
deriving DecidableEq, Repr

/-- A single-format config as produced by `mk`:
`{ file, format, ...output }`. -/
structure OutputConfig where
  file : String
  format : ModuleFormat
  name : Option String := none
  sourcemap : Option Bool := none
  extend : Option Bool := none
  plugins : List Plugin := []
deriving DecidableEq, Repr

/-- A single-format rollup config (`RollupOptions`): input, the
`external` list (`extDeps` here), and one output. -/
structure RollupOptions where
  input : String
  extDeps : Option (List String) := none
  output : OutputConfig
deriving DecidableEq, Repr

/-- Matrix expansion (`mk`, src/unnamed/part_000 lines 155-172): one
single-format config per requested format, with the output file computed
by `dest`; `input` and `external` are carried through unchanged, and the
snippet's output fields are spread over `{ file, format }`. -/
def mk (name : String) (formats : List ModuleFormat) (cs : ConfigSnippet) : List RollupOptions :=
  formats.map fun format =>
    { input := cs.input
      extDeps := cs.extDeps
      output :=
        { file := dest name format
          format := format
          name := cs.output.bind OutputSnippet.name
          sourcemap := cs.output.bind OutputSnippet.sourcemap
          extend := cs.output.bind OutputSnippet.extend } }

/-- The `bundleNames.push(name)` side effect of `mk` happens once per
format inside the loop (line 161); expansion therefore records the
descriptor's name once per format. -/
def mkNames (name : String) (formats : List ModuleFormat) : List String :=
  formats.map fun _ => name

/-- The declared descriptor list (name, formats, snippet) transcribing the
fifteen `mk` calls of src/unnamed/part_000 lines 44-147. -/
def snippetList : List (String × List ModuleFormat × ConfigSnippet) :=
  [ ("htm", [esm, umd, iife],
      { input := src ++ "/htm/src/index.js"
        output := some { name := some "htm" } }),
    ("hydrate", [esm, umd, iife],
      { input := src ++ "/hydrate/src/index.js"
        extDeps := some ["sinuous", "sinuous/htm"]
        output := some { name := some "hydrate" } }),
    ("observable", [esm, umd, iife],
      { input := src ++ "/observable/src/observable.js"
        output := some { name := some "observable" } }),
    ("h", [esm, umd, iife],
      { input := src ++ "/h/src/index.js"
        output := some { name := some "h" } }),
    ("template", [esm, umd, iife],
      { input := src ++ "/template/src/template.js"
        extDeps := some ["sinuous"]
        output := some { name := some "template" } }),
    ("data", [esm, umd, iife],
      { input := src ++ "/data/src/data.js"
        extDeps := some ["sinuous", "sinuous/template"]
        output := some { name := some "data" } }),
    ("memo", [esm, umd, iife],
      { input := src ++ "/memo/src/memo.js"
        output := some { name := some "memo" } }),
    ("render", [esm, umd, iife],
      { input := src ++ "/render/src/index.js"
        extDeps := some ["sinuous", "sinuous/template", "sinuous/htm"]
        output := some { name := some "render" } }),
    ("map/mini", [esm, umd, iife],
      { input := src ++ "/map/mini/src/mini.js"
        extDeps := some ["sinuous"]
        output := some { name := some "mini" } }),
    ("map", [esm, umd, iife],
      { input := src ++ "/map/src/index.js"
        extDeps := some ["sinuous"]
        output := some { name := some "map" } }),
    ("sinuous", [esm, umd, iife],
      { input := src ++ "/src/index.js"
        extDeps := some ["sinuous/observable", "sinuous/htm"]
        output := some { name := some "sinuous" } }),
    ("sinuous-observable", [esm],
      { input := src ++ "/src/index.js"
        extDeps := some ["sinuous/htm"]
        output := some { sourcemap := some false } }),
    ("jsx", [esm, umd, iife],
      { input := src ++ "/jsx/index.js"
        extDeps := some ["sinuous/observable"]
        output := some { name := some "sinuous" } }),
    ("babel-plugin-htm", [esm, cjs],
      { input := src ++ "/babel-plugin-htm/src/index.js" }),
    ("all", [esm, umd, iife],
      { input := src ++ "/all/src/index.js"
        output := some { name := some "window", extend := some true } }) ]

/-- `bundleSnippets` (lines 44-148): the declared snippets expanded by
`mk` and flattened. -/
def bundleSnippets : List RollupOptions :=
  (snippetList.map fun e => mk e.1 e.2.1 e.2.2).flatten

/-- The `bundleNames` array after module evaluation: each `mk` call pushes
its name once per format, in declaration order. -/
def bundleNames : List String :=
  (snippetList.map fun e => mkNames e.1 e.2.1).flatten

/-- The declared descriptor names. -/
def declaredNames : List String := snippetList.map fun e => e.1

/-- `pluginReplaceImportsESM` (src/unnamed/part_000 lines 300-321): `null`
unless the config has a non-empty `external` array; otherwise one rewrite
rule per dependency, targeting `dest(basename(dep), format)` relative to
the output file, with the replace pass's `sourcemap` option set to
`Boolean(bundleConfig.output.sourcemap)` — the *snippet* config's output,
i.e. `false` when the descriptor does not explicitly set `sourcemap`. -/
def pluginReplaceImportsESM (rc : RollupOptions) : Option Plugin :=
  match rc.extDeps with
  | some (d :: ds) =>
    some (Plugin.replaceImportsESM
      ((d :: ds).map fun dep =>
        { dep := dep, depPath := resolveDepPath rc.output.file rc.output.format dep })
      (rc.output.sourcemap.getD false))
  | _ => none

/-- The `output.plugins` array built by `makeBundleConfigs`
(lines 193-235): conditional entries followed by `.filter(Boolean)`,
then the snippet's own output plugins. -/
def outputPlugins (rc : RollupOptions) : List Plugin :=
  ([ some Plugin.bundleSize,
     if rc.output.format = esm ∨ rc.output.format = umd ∨ rc.output.format = iife then
       some Plugin.terser else none,
     if rc.output.format = esm then pluginReplaceImportsESM rc else none,
     if rc.output.format = esm then some Plugin.constToLetPass else none,
     if rc.output.format = esm then some Plugin.letMergePass else none,
     if rc.output.format = umd ∨ rc.output.format = iife then
       some Plugin.umdArgsDefinePass else none,
     if rc.output.format = umd ∨ rc.output.format = iife then
       some Plugin.umdApplyWrapperPass else none ].filterMap id)
  ++ rc.output.plugins

/-- The final output options of a generated bundle config: the object
literal `{ format, sourcemap: true, plugins: [...], strict: false, ...,
...restOutput }` — the snippet's remaining output fields override the
defaults, so `sourcemap` defaults to `true`. -/
structure FinalOutput where
  format : ModuleFormat
  sourcemap : Bool
  plugins : List Plugin
  strict : Bool
  interop : Bool
  freeze : Bool
  esModule : Bool
  file : String
  name : Option String
  extend : Option Bool
deriving DecidableEq, Repr

/-- A full self-contained bundle config as returned by
`makeBundleConfigs`. -/
structure BundleConfig where
  input : String
  extDeps : List String
  inputPlugins : List Plugin
  output : FinalOutput
deriving DecidableEq, Repr

/-- `makeBundleConfigs` (src/unnamed/part_000 lines 178-258): wires the
plugin chain and output options around a single-format config.
`external` defaults to `[]`; output `sourcemap` defaults to `true`. -/
def makeBundleConfigs (rc : RollupOptions) : BundleConfig :=
  { input := rc.input
    extDeps := rc.extDeps.getD []
    inputPlugins :=
      [ some Plugin.nodeResolve,
        if rc.output.format = umd ∨ rc.output.format = iife then
          some Plugin.babel else none ].filterMap id
    output :=
      { format := rc.output.format
        sourcemap := rc.output.sourcemap.getD true
        plugins := outputPlugins rc
        strict := false
        interop := false
        freeze := false
        esModule := false
        file := rc.output.file
        name := rc.output.name
        extend := rc.output.extend } }

/-- `const bundles = bundleSnippets.map(makeBundleConfigs)` (line 323). -/
def bundles : List BundleConfig :=
  bundleSnippets.map makeBundleConfigs

example : bundleSnippets.length = 42 := by decide
example : bundleNames.length = 42 := by decide

/-! ## Text patch engine

The replace plugin itself (`./rollup-plugin-replace.js`) is not among the
source files; its application semantics is modelled from the spec (section
4.4): each rule's pattern is applied globally over the current text, scanning
left to right, replacing each non-overlapping match via the rule's rewrite
function of the captured groups and re-scanning from the end of the previous
match; rules of a battery apply strictly in list order, each to the output of
the one before.  The concrete rule patterns below are those of
src/unnamed/part_000 lines 211-231.  JavaScript regex semantics for the
pattern atoms: `[a-z]` is an ASCII lower-case letter, `.` is any character
except a line terminator, `.+?` is lazy (shortest first), `[a-z]+`/`[a-z.]+`
are greedy with backtracking. -/

/-- `[a-z]`. -/
def lowc (c : Char) : Bool := 'a' ≤ c && c ≤ 'z'

/-- `.` — any character except a line terminator. -/
def dotc (c : Char) : Bool := !(c = '\n' || c = '\r')

/-- Strip an expected literal from the front of the text. -/
def stripPre : List Char → List Char → Option (List Char)
  | [], l => some l
  | _ :: _, [] => none
  | a :: p, b :: l => if a = b then stripPre p l else none

theorem stripPre_eq_some {p l r : List Char} :
    stripPre p l = some r ↔ l = p ++ r := by
  induction p generalizing l with
  | nil => simp [stripPre]
  | cons a p ih =>
    cases l with
    | nil => simp [stripPre]
    | cons b l =>
      by_cases hab : a = b
      · subst hab; simp [stripPre, ih]
      · simp only [stripPre, if_neg hab]
        constructor
        · intro h; exact absurd h (by simp)
        · intro h
          exact absurd (List.head_eq_of_cons_eq h).symm hab

/-- Match of `/const ([a-z])=/` at the head of the text: on success, the
captured letter and the text after the match. -/
def matchConst : List Char → Option (Char × List Char)
  | c0 :: c1 :: c2 :: c3 :: c4 :: c5 :: x :: c7 :: rest =>
    if c0 = 'c' ∧ c1 = 'o' ∧ c2 = 'n' ∧ c3 = 's' ∧ c4 = 't' ∧ c5 = ' ' ∧
        lowc x = true ∧ c7 = '=' then
      some (x, rest)
    else none
  | _ => none

theorem matchConst_eq_some {l rest : List Char} {x : Char} :
    matchConst l = some (x, rest) ↔
      lowc x = true ∧ l = 'c' :: 'o' :: 'n' :: 's' :: 't' :: ' ' :: x :: '=' :: rest := by
  rcases l with - | ⟨c0, - | ⟨c1, - | ⟨c2, - | ⟨c3, - | ⟨c4, - | ⟨c5, - | ⟨c6, - | ⟨c7, t⟩⟩⟩⟩⟩⟩⟩⟩
  all_goals simp [matchConst]
  all_goals aesop

theorem matchConst_nil : matchConst [] = none := rfl

theorem matchConst_none_head {c : Char} {cs : List Char} (h : ¬c = 'c') :
    matchConst (c :: cs) = none := by
  cases hm : matchConst (c :: cs) with
  | none => rfl
  | some xr =>
    obtain ⟨-, heq⟩ := matchConst_eq_some.mp hm
    exact absurd (List.head_eq_of_cons_eq heq) h

theorem matchConst_none_snd {a b : Char} {cs : List Char} (h : ¬b = 'o') :
    matchConst (a :: b :: cs) = none := by
  cases hm : matchConst (a :: b :: cs) with
  | none => rfl
  | some xr =>
    obtain ⟨-, heq⟩ := matchConst_eq_some.mp hm
    exact absurd (List.head_eq_of_cons_eq (List.tail_eq_of_cons_eq heq)) h

/-- Match of `/let ([a-z]);let /` at the head of the text. -/
def matchLetSemi : List Char → Option (Char × List Char)
  | c0 :: c1 :: c2 :: c3 :: x :: c5 :: c6 :: c7 :: c8 :: c9 :: rest =>
    if c0 = 'l' ∧ c1 = 'e' ∧ c2 = 't' ∧ c3 = ' ' ∧ lowc x = true ∧ c5 = ';' ∧
        c6 = 'l' ∧ c7 = 'e' ∧ c8 = 't' ∧ c9 = ' ' then
      some (x, rest)
    else none
  | _ => none

theorem matchLetSemi_eq_some {l rest : List Char} {x : Char} :
    matchLetSemi l = some (x, rest) ↔
      lowc x = true ∧
        l = 'l' :: 'e' :: 't' :: ' ' :: x :: ';' :: 'l' :: 'e' :: 't' :: ' ' :: rest := by
  rcases l with - | ⟨c0, - | ⟨c1, - | ⟨c2, - | ⟨c3, - | ⟨c4, - | ⟨c5, - | ⟨c6, - | ⟨c7,
    - | ⟨c8, - | ⟨c9, t⟩⟩⟩⟩⟩⟩⟩⟩⟩⟩
  all_goals simp [matchLetSemi]
  all_goals aesop

theorem matchLetSemi_nil : matchLetSemi [] = none := rfl

theorem matchLetSemi_none_head {c : Char} {cs : List Char} (h : ¬c = 'l') :
    matchLetSemi (c :: cs) = none := by
  cases hm : matchLetSemi (c :: cs) with
  | none => rfl
  | some xr =>
    obtain ⟨-, heq⟩ := matchLetSemi_eq_some.mp hm
    exact absurd (List.head_eq_of_cons_eq heq) h

theorem matchLetSemi_none_snd {a b : Char} {cs : List Char} (h : ¬b = 'e') :
    matchLetSemi (a :: b :: cs) = none := by
  cases hm : matchLetSemi (a :: b :: cs) with
  | none => rfl
  | some xr =>
    obtain ⟨-, heq⟩ := matchLetSemi_eq_some.mp hm
    exact absurd (List.head_eq_of_cons_eq (List.tail_eq_of_cons_eq heq)) h

theorem matchLetSemi_none_six {a b c d e f : Char} {cs : List Char} (h : ¬f = ';') :
    matchLetSemi (a :: b :: c :: d :: e :: f :: cs) = none := by
  cases hm : matchLetSemi (a :: b :: c :: d :: e :: f :: cs) with
  | none => rfl
  | some xr =>
    obtain ⟨-, heq⟩ := matchLetSemi_eq_some.mp hm
    simp only [List.cons.injEq] at heq
    exact absurd heq.2.2.2.2.2.1 h

/-- Fuelled scanner for the global application of `/const ([a-z])=/g` with
rewrite `` ([, x]) => `let ${x}=` `` (src/unnamed/part_000 line 211): scan
left to right, replace every match, resume after each match.  One unit of
fuel is spent per scanned position, so `l.length` fuel always suffices. -/
def ctlF : Nat → List Char → List Char
  | 0, l => l
  | _ + 1, [] => []
  | n + 1, c :: cs =>
    match matchConst (c :: cs) with
    | some (x, rest) => 'l' :: 'e' :: 't' :: ' ' :: x :: '=' :: ctlF n rest
    | none => c :: ctlF n cs

/-- The const-to-let pass. -/
def constToLet (l : List Char) : List Char := ctlF l.length l

theorem matchConst_some_len {c x : Char} {cs rest : List Char}
    (hm : matchConst (c :: cs) = some (x, rest)) : cs.length = rest.length + 7 := by
  have := congrArg List.length (matchConst_eq_some.mp hm).2
  simpa using this

theorem ctlF_nil : ∀ n, ctlF n [] = []
  | 0 => rfl
  | _ + 1 => rfl

theorem ctlF_congr : ∀ {n m : Nat} {l : List Char},
    l.length ≤ n → l.length ≤ m → ctlF n l = ctlF m l := by
  intro n
  induction n with
  | zero =>
    intro m l hn hm
    have : l = [] := List.eq_nil_of_length_eq_zero (Nat.le_zero.mp hn)
    subst this
    rw [ctlF_nil, ctlF_nil]
  | succ n ih =>
    intro m l hn hm
    cases l with
    | nil => rw [ctlF_nil, ctlF_nil]
    | cons c cs =>
      cases m with
      | zero => simp at hm
      | succ m =>
        cases hmc : matchConst (c :: cs) with
        | some xr =>
          obtain ⟨x, rest⟩ := xr
          have hlen : cs.length = rest.length + 7 := matchConst_some_len hmc
          simp only [List.length_cons] at hn hm
          simp only [ctlF, hmc]
          have hr := @ih m rest (by omega) (by omega)
          rw [hr]
        | none =>
          simp only [List.length_cons] at hn hm
          simp only [ctlF, hmc]
          have hr := @ih m cs (by omega) (by omega)
          rw [hr]

theorem constToLet_nil : constToLet [] = [] := rfl

theorem constToLet_match {c x : Char} {cs rest : List Char}
    (hm : matchConst (c :: cs) = some (x, rest)) :
    constToLet (c :: cs) = 'l' :: 'e' :: 't' :: ' ' :: x :: '=' :: constToLet rest := by
  have hlen : cs.length = rest.length + 7 := matchConst_some_len hm
  show ctlF (c :: cs).length (c :: cs) = _
  simp only [List.length_cons, ctlF, hm]
  have hr := @ctlF_congr cs.length rest.length rest (by omega) (Nat.le_refl _)
  rw [hr]
  rfl

theorem constToLet_skip {c : Char} {cs : List Char} (hm : matchConst (c :: cs) = none) :
    constToLet (c :: cs) = c :: constToLet cs := by
  show ctlF (c :: cs).length (c :: cs) = _
  simp only [List.length_cons, ctlF, hm]
  rfl

/-- Fuelled scanner for the global application of `/let ([a-z]);let /g` with
rewrite `` ([, x]) => `let ${x},` `` (src/unnamed/part_000 line 214). -/
def lmF : Nat → List Char → List Char
  | 0, l => l
  | _ + 1, [] => []
  | n + 1, c :: cs =>
    match matchLetSemi (c :: cs) with
    | some (x, rest) => 'l' :: 'e' :: 't' :: ' ' :: x :: ',' :: lmF n rest
    | none => c :: lmF n cs

/-- The let-merging pass. -/
def letMerge (l : List Char) : List Char := lmF l.length l

theorem matchLetSemi_some_len {c x : Char} {cs rest : List Char}
    (hm : matchLetSemi (c :: cs) = some (x, rest)) : cs.length = rest.length + 9 := by
  have := congrArg List.length (matchLetSemi_eq_some.mp hm).2
  simpa using this

theorem lmF_nil : ∀ n, lmF n [] = []
  | 0 => rfl
  | _ + 1 => rfl

theorem lmF_congr : ∀ {n m : Nat} {l : List Char},
    l.length ≤ n → l.length ≤ m → lmF n l = lmF m l := by
  intro n
  induction n with
  | zero =>
    intro m l hn hm
    have : l = [] := List.eq_nil_of_length_eq_zero (Nat.le_zero.mp hn)
    subst this
    rw [lmF_nil, lmF_nil]
  | succ n ih =>
    intro m l hn hm
    cases l with
    | nil => rw [lmF_nil, lmF_nil]
    | cons c cs =>
      cases m with
      | zero => simp at hm
      | succ m =>
        cases hmc : matchLetSemi (c :: cs) with
        | some xr =>
          obtain ⟨x, rest⟩ := xr
          have hlen : cs.length = rest.length + 9 := matchLetSemi_some_len hmc
          simp only [List.length_cons] at hn hm
          simp only [lmF, hmc]
          have hr := @ih m rest (by omega) (by omega)
          rw [hr]
        | none =>
          simp only [List.length_cons] at hn hm
          simp only [lmF, hmc]
          have hr := @ih m cs (by omega) (by omega)
          rw [hr]

theorem letMerge_nil : letMerge [] = [] := rfl

theorem letMerge_match {c x : Char} {cs rest : List Char}
    (hm : matchLetSemi (c :: cs) = some (x, rest)) :
    letMerge (c :: cs) = 'l' :: 'e' :: 't' :: ' ' :: x :: ',' :: letMerge rest := by
  have hlen : cs.length = rest.length + 9 := matchLetSemi_some_len hm
  show lmF (c :: cs).length (c :: cs) = _
  simp only [List.length_cons, lmF, hm]
  have hr := @lmF_congr cs.length rest.length rest (by omega) (Nat.le_refl _)
  rw [hr]
  rfl

theorem letMerge_skip {c : Char} {cs : List Char} (hm : matchLetSemi (c :: cs) = none) :
    letMerge (c :: cs) = c :: letMerge cs := by
  show lmF (c :: cs).length (c :: cs) = _
  simp only [List.length_cons, lmF, hm]
  rfl

/-- The esm cleanup battery (lines 209-214): the const-to-let pass then the
let-merging pass, as two successive global replace passes. -/
def esmBattery (s : String) : String :=
  ⟨letMerge (constToLet s.data)⟩

example : esmBattery "const a=1;const b=2;" = "let a=1;let b=2;" := by decide
example : esmBattery "let a;let b;let c;let d=1" = "let a,b;let c,d=1" := by decide

/-! ### Prefix-transfer lemmas

The idempotence proofs hinge on: if a scanner's output starts with (a suffix
of) a pattern that no replacement can produce, the input started with the
same characters.  Each lemma below transfers one such prefix from output to
input, chaining down one character at a time. -/

theorem ctlPreA1 {t T : List Char} (h : constToLet t = '=' :: T) :
    ∃ T', t = '=' :: T' := by
  cases t with
  | nil => rw [constToLet_nil] at h; exact absurd h (by simp)
  | cons c cs =>
    cases hm : matchConst (c :: cs) with
    | some xr =>
      obtain ⟨x, rest⟩ := xr
      rw [constToLet_match hm] at h
      exact absurd h (by simp)
    | none =>
      rw [constToLet_skip hm] at h
      exact ⟨cs, by rw [List.head_eq_of_cons_eq h]⟩

theorem ctlPreA2 {t T : List Char} {x : Char} (h : constToLet t = x :: '=' :: T) :
    ∃ T', t = x :: '=' :: T' := by
  cases t with
  | nil => rw [constToLet_nil] at h; exact absurd h (by simp)
  | cons c cs =>
    cases hm : matchConst (c :: cs) with
    | some xr =>
      obtain ⟨y, rest⟩ := xr
      rw [constToLet_match hm] at h
      exact absurd h (by simp)
    | none =>
      rw [constToLet_skip hm] at h
      obtain ⟨T', hT⟩ := ctlPreA1 (List.tail_eq_of_cons_eq h)
      exact ⟨T', by rw [List.head_eq_of_cons_eq h, hT]⟩

theorem ctlPreA3 {t T : List Char} {x : Char} (h : constToLet t = ' ' :: x :: '=' :: T) :
    ∃ T', t = ' ' :: x :: '=' :: T' := by
  cases t with
  | nil => rw [constToLet_nil] at h; exact absurd h (by simp)
  | cons c cs =>
    cases hm : matchConst (c :: cs) with
    | some xr =>
      obtain ⟨y, rest⟩ := xr
      rw [constToLet_match hm] at h
      exact absurd h (by simp)
    | none =>
      rw [constToLet_skip hm] at h
      obtain ⟨T', hT⟩ := ctlPreA2 (List.tail_eq_of_cons_eq h)
      exact ⟨T', by rw [List.head_eq_of_cons_eq h, hT]⟩

theorem ctlPreA4 {t T : List Char} {x : Char} (h : constToLet t = 't' :: ' ' :: x :: '=' :: T) :
    ∃ T', t = 't' :: ' ' :: x :: '=' :: T' := by
  cases t with
  | nil => rw [constToLet_nil] at h; exact absurd h (by simp)
  | cons c cs =>
    cases hm : matchConst (c :: cs) with
    | some xr =>
      obtain ⟨y, rest⟩ := xr
      rw [constToLet_match hm] at h
      exact absurd h (by simp)
    | none =>
      rw [constToLet_skip hm] at h
      obtain ⟨T', hT⟩ := ctlPreA3 (List.tail_eq_of_cons_eq h)
      exact ⟨T', by rw [List.head_eq_of_cons_eq h, hT]⟩

theorem ctlPreA5 {t T : List Char} {x : Char}
    (h : constToLet t = 's' :: 't' :: ' ' :: x :: '=' :: T) :
    ∃ T', t = 's' :: 't' :: ' ' :: x :: '=' :: T' := by
  cases t with
  | nil => rw [constToLet_nil] at h; exact absurd h (by simp)
  | cons c cs =>
    cases hm : matchConst (c :: cs) with
    | some xr =>
      obtain ⟨y, rest⟩ := xr
      rw [constToLet_match hm] at h
      exact absurd h (by simp)
    | none =>
      rw [constToLet_skip hm] at h
      obtain ⟨T', hT⟩ := ctlPreA4 (List.tail_eq_of_cons_eq h)
      exact ⟨T', by rw [List.head_eq_of_cons_eq h, hT]⟩

theorem ctlPreA6 {t T : List Char} {x : Char}
    (h : constToLet t = 'n' :: 's' :: 't' :: ' ' :: x :: '=' :: T) :
    ∃ T', t = 'n' :: 's' :: 't' :: ' ' :: x :: '=' :: T' := by
  cases t with
  | nil => rw [constToLet_nil] at h; exact absurd h (by simp)
  | cons c cs =>
    cases hm : matchConst (c :: cs) with
    | some xr =>
      obtain ⟨y, rest⟩ := xr
      rw [constToLet_match hm] at h
      exact absurd h (by simp)
    | none =>
      rw [constToLet_skip hm] at h
      obtain ⟨T', hT⟩ := ctlPreA5 (List.tail_eq_of_cons_eq h)
      exact ⟨T', by rw [List.head_eq_of_cons_eq h, hT]⟩

theorem ctlPreA7 {t T : List Char} {x : Char}
    (h : constToLet t = 'o' :: 'n' :: 's' :: 't' :: ' ' :: x :: '=' :: T) :
    ∃ T', t = 'o' :: 'n' :: 's' :: 't' :: ' ' :: x :: '=' :: T' := by
  cases t with
  | nil => rw [constToLet_nil] at h; exact absurd h (by simp)
  | cons c cs =>
    cases hm : matchConst (c :: cs) with
    | some xr =>
      obtain ⟨y, rest⟩ := xr
      rw [constToLet_match hm] at h
      exact absurd h (by simp)
    | none =>
      rw [constToLet_skip hm] at h
      obtain ⟨T', hT⟩ := ctlPreA6 (List.tail_eq_of_cons_eq h)
      exact ⟨T', by rw [List.head_eq_of_cons_eq h, hT]⟩

/-- The const-to-let pass steps untouched over its own replacement text. -/
theorem constToLet_letpre (x : Char) (T : List Char) :
    constToLet ('l' :: 'e' :: 't' :: ' ' :: x :: '=' :: T) =
      'l' :: 'e' :: 't' :: ' ' :: x :: '=' :: constToLet T := by
  rw [constToLet_skip (matchConst_none_head (by decide)),
    constToLet_skip (matchConst_none_head (by decide)),
    constToLet_skip (matchConst_none_head (by decide)),
    constToLet_skip (matchConst_none_head (by decide)),
    constToLet_skip (matchConst_none_snd (by decide)),
    constToLet_skip (matchConst_none_head (by decide))]

/-- A second const-to-let pass changes nothing: the pass's own output
contains no match of `/const ([a-z])=/` any more. -/
theorem constToLet_idem (l : List Char) : constToLet (constToLet l) = constToLet l := by
  cases l with
  | nil => rw [constToLet_nil, constToLet_nil]
  | cons c cs =>
    cases hm : matchConst (c :: cs) with
    | some xr =>
      obtain ⟨x, rest⟩ := xr
      rw [constToLet_match hm, constToLet_letpre, constToLet_idem rest]
    | none =>
      rw [constToLet_skip hm]
      have hnone : matchConst (c :: constToLet cs) = none := by
        cases hq : matchConst (c :: constToLet cs) with
        | none => rfl
        | some yr =>
          obtain ⟨y, r⟩ := yr
          obtain ⟨hlow, heq⟩ := matchConst_eq_some.mp hq
          obtain ⟨T', hT⟩ := ctlPreA7 (List.tail_eq_of_cons_eq heq)
          have : matchConst (c :: cs) = some (y, T') := by
            refine matchConst_eq_some.mpr ⟨hlow, ?_⟩
            rw [List.head_eq_of_cons_eq heq, hT]
          rw [this] at hm
          exact absurd hm (by simp)
      rw [constToLet_skip hnone, constToLet_idem cs]
termination_by l.length
decreasing_by
  all_goals
    try have hlen7 := matchConst_some_len hm
    try simp only [List.length_cons]
    omega

theorem lmPreB1 {t T : List Char} (h : letMerge t = ' ' :: T) :
    ∃ T', t = ' ' :: T' := by
  cases t with
  | nil => rw [letMerge_nil] at h; exact absurd h (by simp)
  | cons c cs =>
    cases hm : matchLetSemi (c :: cs) with
    | some xr =>
      obtain ⟨y, rest⟩ := xr
      rw [letMerge_match hm] at h
      exact absurd h (by simp)
    | none =>
      rw [letMerge_skip hm] at h
      exact ⟨cs, by rw [List.head_eq_of_cons_eq h]⟩

theorem lmPreB2 {t T : List Char} (h : letMerge t = 't' :: ' ' :: T) :
    ∃ T', t = 't' :: ' ' :: T' := by
  cases t with
  | nil => rw [letMerge_nil] at h; exact absurd h (by simp)
  | cons c cs =>
    cases hm : matchLetSemi (c :: cs) with
    | some xr =>
      obtain ⟨y, rest⟩ := xr
      rw [letMerge_match hm] at h
      exact absurd h (by simp)
    | none =>
      rw [letMerge_skip hm] at h
      obtain ⟨T', hT⟩ := lmPreB1 (List.tail_eq_of_cons_eq h)
      exact ⟨T', by rw [List.head_eq_of_cons_eq h, hT]⟩

theorem lmPreB3 {t T : List Char} (h : letMerge t = 'e' :: 't' :: ' ' :: T) :
    ∃ T', t = 'e' :: 't' :: ' ' :: T' := by
  cases t with
  | nil => rw [letMerge_nil] at h; exact absurd h (by simp)
  | cons c cs =>
    cases hm : matchLetSemi (c :: cs) with
    | some xr =>
      obtain ⟨y, rest⟩ := xr
      rw [letMerge_match hm] at h
      exact absurd h (by simp)
    | none =>
      rw [letMerge_skip hm] at h
      obtain ⟨T', hT⟩ := lmPreB2 (List.tail_eq_of_cons_eq h)
      exact ⟨T', by rw [List.head_eq_of_cons_eq h, hT]⟩

theorem lmPreB4 {t T : List Char} (h : letMerge t = 'l' :: 'e' :: 't' :: ' ' :: T) :
    ∃ T', t = 'l' :: 'e' :: 't' :: ' ' :: T' := by
  cases t with
  | nil => rw [letMerge_nil] at h; exact absurd h (by simp)
  | cons c cs =>
    cases hm : matchLetSemi (c :: cs) with
    | some xr =>
      obtain ⟨y, rest⟩ := xr
      obtain ⟨-, heq⟩ := matchLetSemi_eq_some.mp hm
      exact ⟨y :: ';' :: 'l' :: 'e' :: 't' :: ' ' :: rest, heq⟩
    | none =>
      rw [letMerge_skip hm] at h
      obtain ⟨T', hT⟩ := lmPreB3 (List.tail_eq_of_cons_eq h)
      exact ⟨T', by rw [List.head_eq_of_cons_eq h, hT]⟩

theorem lmPreB5 {t T : List Char} (h : letMerge t = ';' :: 'l' :: 'e' :: 't' :: ' ' :: T) :
    ∃ T', t = ';' :: 'l' :: 'e' :: 't' :: ' ' :: T' := by
  cases t with
  | nil => rw [letMerge_nil] at h; exact absurd h (by simp)
  | cons c cs =>
    cases hm : matchLetSemi (c :: cs) with
    | some xr =>
      obtain ⟨y, rest⟩ := xr
      rw [letMerge_match hm] at h
      exact absurd h (by simp)
    | none =>
      rw [letMerge_skip hm] at h
      obtain ⟨T', hT⟩ := lmPreB4 (List.tail_eq_of_cons_eq h)
      exact ⟨T', by rw [List.head_eq_of_cons_eq h, hT]⟩

theorem lmPreB6 {t T : List Char} {x : Char}
    (h : letMerge t = x :: ';' :: 'l' :: 'e' :: 't' :: ' ' :: T) :
    ∃ T', t = x :: ';' :: 'l' :: 'e' :: 't' :: ' ' :: T' := by
  cases t with
  | nil => rw [letMerge_nil] at h; exact absurd h (by simp)
  | cons c cs =>
    cases hm : matchLetSemi (c :: cs) with
    | some xr =>
      obtain ⟨y, rest⟩ := xr
      rw [letMerge_match hm] at h
      exact absurd h (by simp)
    | none =>
      rw [letMerge_skip hm] at h
      obtain ⟨T', hT⟩ := lmPreB5 (List.tail_eq_of_cons_eq h)
      exact ⟨T', by rw [List.head_eq_of_cons_eq h, hT]⟩

theorem lmPreB7 {t T : List Char} {x : Char}
    (h : letMerge t = ' ' :: x :: ';' :: 'l' :: 'e' :: 't' :: ' ' :: T) :
    ∃ T', t = ' ' :: x :: ';' :: 'l' :: 'e' :: 't' :: ' ' :: T' := by
  cases t with
  | nil => rw [letMerge_nil] at h; exact absurd h (by simp)
  | cons c cs =>
    cases hm : matchLetSemi (c :: cs) with
    | some xr =>
      obtain ⟨y, rest⟩ := xr
      rw [letMerge_match hm] at h
      exact absurd h (by simp)
    | none =>
      rw [letMerge_skip hm] at h
      obtain ⟨T', hT⟩ := lmPreB6 (List.tail_eq_of_cons_eq h)
      exact ⟨T', by rw [List.head_eq_of_cons_eq h, hT]⟩

theorem lmPreB8 {t T : List Char} {x : Char}
    (h : letMerge t = 't' :: ' ' :: x :: ';' :: 'l' :: 'e' :: 't' :: ' ' :: T) :
    ∃ T', t = 't' :: ' ' :: x :: ';' :: 'l' :: 'e' :: 't' :: ' ' :: T' := by
  cases t with
  | nil => rw [letMerge_nil] at h; exact absurd h (by simp)
  | cons c cs =>
    cases hm : matchLetSemi (c :: cs) with
    | some xr =>
      obtain ⟨y, rest⟩ := xr
      rw [letMerge_match hm] at h
      exact absurd h (by simp)
    | none =>
      rw [letMerge_skip hm] at h
      obtain ⟨T', hT⟩ := lmPreB7 (List.tail_eq_of_cons_eq h)
      exact ⟨T', by rw [List.head_eq_of_cons_eq h, hT]⟩

theorem lmPreB9 {t T : List Char} {x : Char}
    (h : letMerge t = 'e' :: 't' :: ' ' :: x :: ';' :: 'l' :: 'e' :: 't' :: ' ' :: T) :
    ∃ T', t = 'e' :: 't' :: ' ' :: x :: ';' :: 'l' :: 'e' :: 't' :: ' ' :: T' := by
  cases t with
  | nil => rw [letMerge_nil] at h; exact absurd h (by simp)
  | cons c cs =>
    cases hm : matchLetSemi (c :: cs) with
    | some xr =>
      obtain ⟨y, rest⟩ := xr
      rw [letMerge_match hm] at h
      exact absurd h (by simp)
    | none =>
      rw [letMerge_skip hm] at h
      obtain ⟨T', hT⟩ := lmPreB8 (List.tail_eq_of_cons_eq h)
      exact ⟨T', by rw [List.head_eq_of_cons_eq h, hT]⟩

/-- The let-merging pass steps untouched over its own replacement text. -/
theorem letMerge_commapre (x : Char) (T : List Char) :
    letMerge ('l' :: 'e' :: 't' :: ' ' :: x :: ',' :: T) =
      'l' :: 'e' :: 't' :: ' ' :: x :: ',' :: letMerge T := by
  rw [letMerge_skip (matchLetSemi_none_six (by decide)),
    letMerge_skip (matchLetSemi_none_head (by decide)),
    letMerge_skip (matchLetSemi_none_head (by decide)),
    letMerge_skip (matchLetSemi_none_head (by decide)),
    letMerge_skip (matchLetSemi_none_snd (by decide)),
    letMerge_skip (matchLetSemi_none_head (by decide))]

/-- A second let-merging pass changes nothing: the pass's own output
contains no match of `/let ([a-z]);let /` any more. -/
theorem letMerge_idem (l : List Char) : letMerge (letMerge l) = letMerge l := by
  cases l with
  | nil => rw [letMerge_nil, letMerge_nil]
  | cons c cs =>
    cases hm : matchLetSemi (c :: cs) with
    | some xr =>
      obtain ⟨x, rest⟩ := xr
      rw [letMerge_match hm, letMerge_commapre, letMerge_idem rest]
    | none =>
      rw [letMerge_skip hm]
      have hnone : matchLetSemi (c :: letMerge cs) = none := by
        cases hq : matchLetSemi (c :: letMerge cs) with
        | none => rfl
        | some yr =>
          obtain ⟨y, r⟩ := yr
          obtain ⟨hlow, heq⟩ := matchLetSemi_eq_some.mp hq
          obtain ⟨T', hT⟩ := lmPreB9 (List.tail_eq_of_cons_eq heq)
          have : matchLetSemi (c :: cs) = some (y, T') := by
            refine matchLetSemi_eq_some.mpr ⟨hlow, ?_⟩
            rw [List.head_eq_of_cons_eq heq, hT]
          rw [this] at hm
          exact absurd hm (by simp)
      rw [letMerge_skip hnone, letMerge_idem cs]
termination_by l.length
decreasing_by
  all_goals
    try have hlen9 := matchLetSemi_some_len hm
    try simp only [List.length_cons]
    omega

theorem lmPreA1 {t T : List Char} (h : letMerge t = '=' :: T) :
    ∃ T', t = '=' :: T' := by
  cases t with
  | nil => rw [letMerge_nil] at h; exact absurd h (by simp)
  | cons c cs =>
    cases hm : matchLetSemi (c :: cs) with
    | some xr =>
      obtain ⟨y, rest⟩ := xr
      rw [letMerge_match hm] at h
      exact absurd h (by simp)
    | none =>
      rw [letMerge_skip hm] at h
      exact ⟨cs, by rw [List.head_eq_of_cons_eq h]⟩

theorem lmPreA2 {t T : List Char} {x : Char} (h : letMerge t = x :: '=' :: T) :
    ∃ T', t = x :: '=' :: T' := by
  cases t with
  | nil => rw [letMerge_nil] at h; exact absurd h (by simp)
  | cons c cs =>
    cases hm : matchLetSemi (c :: cs) with
    | some xr =>
      obtain ⟨y, rest⟩ := xr
      rw [letMerge_match hm] at h
      exact absurd h (by simp)
    | none =>
      rw [letMerge_skip hm] at h
      obtain ⟨T', hT⟩ := lmPreA1 (List.tail_eq_of_cons_eq h)
      exact ⟨T', by rw [List.head_eq_of_cons_eq h, hT]⟩

theorem lmPreA3 {t T : List Char} {x : Char} (h : letMerge t = ' ' :: x :: '=' :: T) :
    ∃ T', t = ' ' :: x :: '=' :: T' := by
  cases t with
  | nil => rw [letMerge_nil] at h; exact absurd h (by simp)
  | cons c cs =>
    cases hm : matchLetSemi (c :: cs) with
    | some xr =>
      obtain ⟨y, rest⟩ := xr
      rw [letMerge_match hm] at h
      exact absurd h (by simp)
    | none =>
      rw [letMerge_skip hm] at h
      obtain ⟨T', hT⟩ := lmPreA2 (List.tail_eq_of_cons_eq h)
      exact ⟨T', by rw [List.head_eq_of_cons_eq h, hT]⟩

theorem lmPreA4 {t T : List Char} {x : Char}
    (h : letMerge t = 't' :: ' ' :: x :: '=' :: T) :
    ∃ T', t = 't' :: ' ' :: x :: '=' :: T' := by
  cases t with
  | nil => rw [letMerge_nil] at h; exact absurd h (by simp)
  | cons c cs =>
    cases hm : matchLetSemi (c :: cs) with
    | some xr =>
      obtain ⟨y, rest⟩ := xr
      rw [letMerge_match hm] at h
      exact absurd h (by simp)
    | none =>
      rw [letMerge_skip hm] at h
      obtain ⟨T', hT⟩ := lmPreA3 (List.tail_eq_of_cons_eq h)
      exact ⟨T', by rw [List.head_eq_of_cons_eq h, hT]⟩

theorem lmPreA5 {t T : List Char} {x : Char}
    (h : letMerge t = 's' :: 't' :: ' ' :: x :: '=' :: T) :
    ∃ T', t = 's' :: 't' :: ' ' :: x :: '=' :: T' := by
  cases t with
  | nil => rw [letMerge_nil] at h; exact absurd h (by simp)
  | cons c cs =>
    cases hm : matchLetSemi (c :: cs) with
    | some xr =>
      obtain ⟨y, rest⟩ := xr
      rw [letMerge_match hm] at h
      exact absurd h (by simp)
    | none =>
      rw [letMerge_skip hm] at h
      obtain ⟨T', hT⟩ := lmPreA4 (List.tail_eq_of_cons_eq h)
      exact ⟨T', by rw [List.head_eq_of_cons_eq h, hT]⟩

theorem lmPreA6 {t T : List Char} {x : Char}
    (h : letMerge t = 'n' :: 's' :: 't' :: ' ' :: x :: '=' :: T) :
    ∃ T', t = 'n' :: 's' :: 't' :: ' ' :: x :: '=' :: T' := by
  cases t with
  | nil => rw [letMerge_nil] at h; exact absurd h (by simp)
  | cons c cs =>
    cases hm : matchLetSemi (c :: cs) with
    | some xr =>
      obtain ⟨y, rest⟩ := xr
      rw [letMerge_match hm] at h
      exact absurd h (by simp)
    | none =>
      rw [letMerge_skip hm] at h
      obtain ⟨T', hT⟩ := lmPreA5 (List.tail_eq_of_cons_eq h)
      exact ⟨T', by rw [List.head_eq_of_cons_eq h, hT]⟩

theorem lmPreA7 {t T : List Char} {x : Char}
    (h : letMerge t = 'o' :: 'n' :: 's' :: 't' :: ' ' :: x :: '=' :: T) :
    ∃ T', t = 'o' :: 'n' :: 's' :: 't' :: ' ' :: x :: '=' :: T' := by
  cases t with
  | nil => rw [letMerge_nil] at h; exact absurd h (by simp)
  | cons c cs =>
    cases hm : matchLetSemi (c :: cs) with
    | some xr =>
      obtain ⟨y, rest⟩ := xr
      rw [letMerge_match hm] at h
      exact absurd h (by simp)
    | none =>
      rw [letMerge_skip hm] at h
      obtain ⟨T', hT⟩ := lmPreA6 (List.tail_eq_of_cons_eq h)
      exact ⟨T', by rw [List.head_eq_of_cons_eq h, hT]⟩

/-- The const-to-let pass steps untouched over a let-merge match text. -/
theorem constToLet_letsemipre (x : Char) (T : List Char) :
    constToLet ('l' :: 'e' :: 't' :: ' ' :: x :: ';' :: 'l' :: 'e' :: 't' :: ' ' :: T) =
      'l' :: 'e' :: 't' :: ' ' :: x :: ';' :: 'l' :: 'e' :: 't' :: ' ' :: constToLet T := by
  rw [constToLet_skip (matchConst_none_head (by decide)),
    constToLet_skip (matchConst_none_head (by decide)),
    constToLet_skip (matchConst_none_head (by decide)),
    constToLet_skip (matchConst_none_head (by decide)),
    constToLet_skip (matchConst_none_snd (by decide)),
    constToLet_skip (matchConst_none_head (by decide)),
    constToLet_skip (matchConst_none_head (by decide)),
    constToLet_skip (matchConst_none_head (by decide)),
    constToLet_skip (matchConst_none_head (by decide)),
    constToLet_skip (matchConst_none_head (by decide))]

/-- The const-to-let pass steps untouched over a let-merge replacement. -/
theorem constToLet_letcommapre (x : Char) (T : List Char) :
    constToLet ('l' :: 'e' :: 't' :: ' ' :: x :: ',' :: T) =
      'l' :: 'e' :: 't' :: ' ' :: x :: ',' :: constToLet T := by
  rw [constToLet_skip (matchConst_none_head (by decide)),
    constToLet_skip (matchConst_none_head (by decide)),
    constToLet_skip (matchConst_none_head (by decide)),
    constToLet_skip (matchConst_none_head (by decide)),
    constToLet_skip (matchConst_none_snd (by decide)),
    constToLet_skip (matchConst_none_head (by decide))]

/-- The let-merging pass preserves fixed points of the const-to-let pass:
its edits can neither contain nor create a `const x=` match. -/
theorem constToLet_fixed_letMerge :
    ∀ l : List Char, constToLet l = l → constToLet (letMerge l) = letMerge l
  | [], _ => by rw [letMerge_nil, constToLet_nil]
  | c :: cs, h => by
    cases hm : matchLetSemi (c :: cs) with
    | some xr =>
      obtain ⟨x, rest⟩ := xr
      have hlen9 := matchLetSemi_some_len hm
      obtain ⟨hlow, heq⟩ := matchLetSemi_eq_some.mp hm
      rw [letMerge_match hm, constToLet_letcommapre]
      have hrest : constToLet rest = rest := by
        rw [heq, constToLet_letsemipre] at h
        simpa using h
      rw [constToLet_fixed_letMerge rest hrest]
    | none =>
      rw [letMerge_skip hm]
      have hcs : constToLet cs = cs := by
        cases hmc : matchConst (c :: cs) with
        | some yr =>
          obtain ⟨y, r⟩ := yr
          obtain ⟨-, heq⟩ := matchConst_eq_some.mp hmc
          rw [constToLet_match hmc, heq] at h
          exact absurd (List.head_eq_of_cons_eq h) (by decide)
        | none =>
          rw [constToLet_skip hmc] at h
          exact List.tail_eq_of_cons_eq h
      have hnone : matchConst (c :: letMerge cs) = none := by
        cases hq : matchConst (c :: letMerge cs) with
        | none => rfl
        | some yr =>
          obtain ⟨y, r⟩ := yr
          obtain ⟨hlow, heq⟩ := matchConst_eq_some.mp hq
          obtain ⟨T', hT⟩ := lmPreA7 (List.tail_eq_of_cons_eq heq)
          have hsome : matchConst (c :: cs) = some (y, T') := by
            refine matchConst_eq_some.mpr ⟨hlow, ?_⟩
            rw [List.head_eq_of_cons_eq heq, hT]
          rw [constToLet_match hsome] at h
          have hchead : c = 'l' := (List.head_eq_of_cons_eq h).symm
          have hcc : c = 'c' := List.head_eq_of_cons_eq (matchConst_eq_some.mp hsome).2
          rw [hchead] at hcc
          exact absurd hcc (by decide)
      rw [constToLet_skip hnone, constToLet_fixed_letMerge cs hcs]
termination_by l => l.length
decreasing_by
  all_goals
    try simp only [List.length_cons]
    omega

/-- Claim C6 (amended): the esm cleanup battery is idempotent on every
text — a second application of the const-to-let pass followed by the
let-merging pass changes nothing, because neither rule's pattern matches
the battery's output.  (The umd/iife battery is, by contrast, not
idempotent; see the counterexample below.) -/
theorem esmBattery_idem (s : String) : esmBattery (esmBattery s) = esmBattery s := by
  unfold esmBattery
  have h1 : constToLet (constToLet s.data) = constToLet s.data := constToLet_idem _
  have h2 := constToLet_fixed_letMerge _ h1
  simp only []
  rw [h2, letMerge_idem]

/-! ### The umd/iife cleanup battery

Executable matchers for the three umd/iife rewrite rules
(src/unnamed/part_000 lines 216-231), mirroring JavaScript regex semantics:
literals match themselves, `.` is `dotc`, `.+?` consumes one character then
grows one character at a time retrying its right context, `[a-z]+`/`[a-z.]+`
are maximal runs (their right contexts, `"` and `}`, cannot occur in the
class, so no backtracking arises there), and the leading `[a-z.]+` of the
third rule backtracks from longest to shortest. -/

/-- Maximal run of `[a-z]` characters: (run, remainder). -/
def takeLow : List Char → List Char × List Char
  | [] => ([], [])
  | c :: cs =>
    if lowc c then
      match takeLow cs with
      | (run, rem) => (c :: run, rem)
    else ([], c :: cs)

/-- Maximal run of `[a-z.]` characters: (run, remainder). -/
def takeLowDot : List Char → List Char × List Char
  | [] => ([], [])
  | c :: cs =>
    if lowc c || c = '.' then
      match takeLowDot cs with
      | (run, rem) => (c :: run, rem)
    else ([], c :: cs)

/-- Right context `arguments\[[a-z]\]` of the argument-spread rule. -/
def matchArgsTail (l : List Char) : Option (List Char) :=
  match stripPre ['a', 'r', 'g', 'u', 'm', 'e', 'n', 't', 's', '['] l with
  | some (z :: b :: rest) => if lowc z ∧ b = ']' then some rest else none
  | _ => none

/-- Lazy scan: try the right context here, else consume one `.` char. -/
def lazyA : List Char → Option (List Char)
  | [] => none
  | c :: cs =>
    match matchArgsTail (c :: cs) with
    | some rest => some rest
    | none => if dotc c then lazyA cs else none

/-- Head match of
`/for\(var [a-z]=arguments.length,([a-z])=new Array.+?arguments\[[a-z]\]/`:
returns the captured letter and the remainder after the match. -/
def matchA (l : List Char) : Option (Char × List Char) :=
  match stripPre ['f', 'o', 'r', '(', 'v', 'a', 'r', ' '] l with
  | some (x0 :: l1) =>
    if lowc x0 then
      match stripPre ['=', 'a', 'r', 'g', 'u', 'm', 'e', 'n', 't', 's'] l1 with
      | some (d :: l2) =>
        if dotc d then
          match stripPre ['l', 'e', 'n', 'g', 't', 'h', ','] l2 with
          | some (y :: l3) =>
            if lowc y then
              match stripPre ['=', 'n', 'e', 'w', ' ', 'A', 'r', 'r', 'a', 'y'] l3 with
              | some (e :: l4) =>
                if dotc e then
                  match lazyA l4 with
                  | some rest => some (y, rest)
                  | none => none
                else none
              | _ => none
            else none
          | _ => none
        else none
      | _ => none
    else none
  | _ => none

/-- Right context `return ([a-z.]+)\x7d\x7d\)` of the defineProperty rule:
returns (captured value, remainder). -/
def ruleBReturnTail (l : List Char) : Option (List Char × List Char) :=
  match stripPre ['r', 'e', 't', 'u', 'r', 'n', ' '] l with
  | some l1 =>
    match takeLowDot l1 with
    | ([], _) => none
    | (v, l2) =>
      match stripPre ['\x7d', '\x7d', ')'] l2 with
      | some rest => some (v, rest)
      | none => none
  | none => none

/-- Lazy scan for the defineProperty rule's right context. -/
def lazyB : List Char → Option (List Char × List Char)
  | [] => none
  | c :: cs =>
    match ruleBReturnTail (c :: cs) with
    | some vr => some vr
    | none => if dotc c then lazyB cs else none

/-- Head match of
`/Object.defineProperty\(([a-z]),"([a-z]+)".+?return ([a-z.]+)\x7d\x7d\)/`:
returns ((target, key, value), remainder). -/
def matchB (l : List Char) : Option ((Char × List Char × List Char) × List Char) :=
  match stripPre ['O', 'b', 'j', 'e', 'c', 't'] l with
  | some (d0 :: l1) =>
    if dotc d0 then
      match stripPre ['d', 'e', 'f', 'i', 'n', 'e', 'P', 'r', 'o', 'p', 'e', 'r', 't',
          'y', '('] l1 with
      | some (tg :: q :: w :: l2) =>
        if lowc tg ∧ q = ',' ∧ w = '"' then
          match takeLow l2 with
          | ([], _) => none
          | (k, l3) =>
            match l3 with
            | e :: l4 =>
              if e = '"' then
                match l4 with
                | c :: cs =>
                  if dotc c then
                    match lazyB cs with
                    | some (v, rest) => some ((tg, k, v), rest)
                    | none => none
                  else none
                | [] => none
              else none
            | [] => none
        else none
      | _ => none
    else none
  | _ => none

/-- Lazy scan for the apply-wrapper rule's right context `[a-z]\)`:
returns (characters the lazy part consumed, remainder after the context). -/
def ruleCEnd : List Char → Option (List Char × List Char)
  | a :: b :: rest =>
    if lowc a ∧ b = ')' then some ([], rest)
    else if dotc a then
      match ruleCEnd (b :: rest) with
      | some (acc, r) => some (a :: acc, r)
      | none => none
    else none
  | _ => none

/-- Backtracking over the length of the leading `[a-z.]+` of the
apply-wrapper rule's capture group, longest first. -/
def ruleCTryK : Nat → List Char → List Char → Option (List Char × List Char)
  | 0, _, _ => none
  | k + 1, run, tail =>
    match run.drop (k + 1) ++ tail with
    | a :: r1 =>
      if dotc a then
        match stripPre ['a', 'p', 'p', 'l', 'y', '('] r1 with
        | some (c :: cs) =>
          if dotc c then
            match ruleCEnd cs with
            | some (acc, rest) =>
              some (run.take (k + 1) ++ a :: 'a' :: 'p' :: 'p' :: 'l' :: 'y' :: '(' ::
                c :: acc, rest)
            | none => ruleCTryK k run tail
          else ruleCTryK k run tail
        | _ => ruleCTryK k run tail
      else ruleCTryK k run tail
    | [] => ruleCTryK k run tail

/-- Head match of
`/var [a-z]=Array.from\(arguments\);return ([a-z.]+.apply\(.+?)[a-z]\)/`:
returns the capture group and the remainder. -/
def matchC (l : List Char) : Option (List Char × List Char) :=
  match stripPre ['v', 'a', 'r', ' '] l with
  | some (v :: l1) =>
    if lowc v then
      match stripPre ['=', 'A', 'r', 'r', 'a', 'y'] l1 with
      | some (d :: l2) =>
        if dotc d then
          match stripPre ['f', 'r', 'o', 'm', '(', 'a', 'r', 'g', 'u', 'm', 'e', 'n',
              't', 's', ')', ';', 'r', 'e', 't', 'u', 'r', 'n', ' '] l2 with
          | some l3 =>
            match takeLowDot l3 with
            | ([], _) => none
            | (run, tail) => ruleCTryK run.length run tail
          | none => none
        else none
      | _ => none
    else none
  | _ => none

/-- Fuelled generic global replace: scan left to right, apply the head
matcher at every position, emit its replacement and resume after the match,
else advance one character (spec section 4.4). -/
def gsubF (m : List Char → Option (List Char × List Char)) :
    Nat → List Char → List Char
  | 0, l => l
  | _ + 1, [] => []
  | n + 1, c :: cs =>
    match m (c :: cs) with
    | some (rep, rest) => rep ++ gsubF m n rest
    | none => c :: gsubF m n cs

/-- Global replace with enough fuel for any input. -/
def gsub (m : List Char → Option (List Char × List Char)) (l : List Char) : List Char :=
  gsubF m l.length l

/-- The argument-spread pass (rule of lines 218-220), rewrite
`` ([, x]) => `var ${x}=Array.from(arguments)` ``. -/
def ruleAPass (l : List Char) : List Char :=
  gsub (fun t =>
    (matchA t).map fun p =>
      (('v' :: 'a' :: 'r' :: ' ' :: p.1 ::
        ('=' :: 'A' :: 'r' :: 'r' :: 'a' :: 'y' :: '.' :: 'f' :: 'r' :: 'o' :: 'm' ::
          '(' :: 'a' :: 'r' :: 'g' :: 'u' :: 'm' :: 'e' :: 'n' :: 't' :: 's' :: ')' :: [])),
       p.2)) l

/-- The defineProperty pass (rule of lines 221-223), rewrite
`` ([, on, key, value]) => `${on}.${key}=${value}` ``. -/
def ruleBPass (l : List Char) : List Char :=
  gsub (fun t =>
    (matchB t).map fun p =>
      (p.1.1 :: '.' :: (p.1.2.1 ++ '=' :: p.1.2.2), p.2)) l

/-- The apply-wrapper pass (lines 227-231), rewrite
`` ([, partialApplyCall]) => `return ${partialApplyCall}arguments)` ``. -/
def ruleCPass (l : List Char) : List Char :=
  gsub (fun t =>
    (matchC t).map fun p =>
      (('r' :: 'e' :: 't' :: 'u' :: 'r' :: 'n' :: ' ' :: []) ++ p.1 ++
        ('a' :: 'r' :: 'g' :: 'u' :: 'm' :: 'e' :: 'n' :: 't' :: 's' :: ')' :: []), p.2)) l

/-- The umd/iife cleanup battery: the argument-spread and defineProperty
rules (one replace call, lines 216-224) followed by the apply-wrapper rule
(second replace call, lines 227-231), applied as ordered passes per spec
section 4.4. -/
def umdBattery (s : String) : String :=
  ⟨ruleCPass (ruleBPass (ruleAPass s.data))⟩

/-- Input on which the umd/iife battery is not idempotent. -/
def umdCounterInput : String :=
  "var a=Array.from(arguments);return b.apply(c,for(var x=g)length,y=new Array.arguments[w]"

example :
    umdBattery umdCounterInput =
      "return b.apply(c,for(var x=arguments)length,y=new Array.arguments[w]" := by decide

example :
    umdBattery (umdBattery umdCounterInput) =
      "return b.apply(c,var y=Array.from(arguments)" := by decide

/-! ## Claim theorems -/

theorem dest_inj (name : String) {f g : ModuleFormat} (h : dest name f = dest name g) :
    f = g := by
  have hd := congrArg String.data h
  cases f <;> cases g <;> first
    | rfl
    | (simp [dest, src, fmtStr, ext, String.data_append] at hd)

/-- Claim C1: for a descriptor with pairwise-distinct formats `[f1..fn]`, matrix
expansion yields exactly `n` single-format configs; their output paths are
`dest name fi`, pairwise distinct, equal to
`packages/sinuous/dist/<format>/<name>.<extension>` with the registered
extensions `min.js` for iife and `js` for esm, umd and cjs. -/
theorem c1_matrix_expansion (name : String) (formats : List ModuleFormat)
    (cs : ConfigSnippet) (hnd : formats.Nodup) :
    (mk name formats cs).length = formats.length ∧
    ((mk name formats cs).map fun rc => rc.output.file) = formats.map (dest name) ∧
    ((mk name formats cs).map fun rc => rc.output.file).Nodup ∧
    (∀ f, dest name f =
      "packages/sinuous/dist/" ++ fmtStr f ++ "/" ++ name ++ "." ++ ext f) ∧
    ext iife = "min.js" ∧ ext esm = "js" ∧ ext umd = "js" ∧ ext cjs = "js" := by
  have hmap : ((mk name formats cs).map fun rc => rc.output.file) =
      formats.map (dest name) := by
    simp [mk]
  refine ⟨by simp [mk], hmap, ?_, ?_, rfl, rfl, rfl, rfl⟩
  · rw [hmap]
    exact hnd.map fun f g hfg => dest_inj name hfg
  · intro f
    refine String.ext ?_
    cases f <;> simp [dest, src, fmtStr, ext, String.data_append]

/-- Witness for C1 at the `htm` descriptor. -/
theorem c1_matrix_expansion_witness :
    ([esm, umd, iife] : List ModuleFormat).Nodup ∧
    (mk "htm" [esm, umd, iife] { input := src ++ "/htm/src/index.js" }).length = 3 ∧
    ((mk "htm" [esm, umd, iife] { input := src ++ "/htm/src/index.js" }).map
      fun rc => rc.output.file).Nodup := by
  have h := c1_matrix_expansion "htm" [esm, umd, iife]
    { input := src ++ "/htm/src/index.js" } (by decide)
  exact ⟨by decide, h.1, h.2.2.1⟩

/-- Claim C2: rewritten import paths are normalized.  The four concrete cases
cover a same-directory dependency (explicit `./` marker), a dependency one
directory level up (no residual `./..`), and one two levels up; the final
conjunct checks every external dependency of every declared esm job:
its resolved path is `./<basename>.js` when the job's artifact sits
directly in the format directory and `../<basename>.js` when it sits one
level deeper. -/
theorem c2_import_paths_normalized :
    resolveDepPath (dest "hydrate" esm) esm "sinuous" = "./sinuous.js" ∧
    resolveDepPath (dest "hydrate" esm) esm "sinuous/htm" = "./htm.js" ∧
    resolveDepPath (dest "map/mini" esm) esm "sinuous" = "../sinuous.js" ∧
    resolveDepPath (dest "map/mini/nano" esm) esm "sinuous" = "../../sinuous.js" ∧
    (bundleSnippets.all fun rc =>
      rc.output.format != esm ||
      (rc.extDeps.getD []).all fun dep =>
        resolveDepPath rc.output.file esm dep ==
          (if (splitSlash rc.output.file.data).length = 5 then "./" else "../") ++
            basename dep ++ ".js") = true := by decide

/-- Claim C10: the resolved path for an external dependency depends on the
dependency identifier only through its final path segment. -/
theorem c10_resolution_depends_on_basename (file : String) (format : ModuleFormat)
    (d1 d2 : String) (h : basename d1 = basename d2) :
    resolveDepPath file format d1 = resolveDepPath file format d2 := by
  unfold resolveDepPath
  rw [h]

/-- Witness for C10: `sinuous/htm` and `htm` resolve identically. -/
theorem c10_resolution_depends_on_basename_witness :
    basename "sinuous/htm" = basename "htm" ∧
    resolveDepPath (dest "hydrate" esm) esm "sinuous/htm" =
      resolveDepPath (dest "hydrate" esm) esm "htm" :=
  ⟨by decide, c10_resolution_depends_on_basename _ _ _ _ (by decide)⟩

/-- The hydrate descriptor's snippet, as declared. -/
def hydrateCS : ConfigSnippet :=
  { input := src ++ "/hydrate/src/index.js"
    extDeps := some ["sinuous", "sinuous/htm"]
    output := some { name := some "hydrate" } }

/-- The hydrate esm single-format config produced by matrix expansion. -/
def rcHydrateEsm : RollupOptions :=
  { input := src ++ "/hydrate/src/index.js"
    extDeps := some ["sinuous", "sinuous/htm"]
    output := { file := dest "hydrate" esm, format := esm, name := some "hydrate" } }

/-- A config whose external dependency names no declared descriptor. -/
def rcBogus : RollupOptions :=
  { input := src ++ "/hydrate/src/index.js"
    extDeps := some ["nosuchpkg"]
    output := { file := dest "hydrate" esm, format := esm, name := some "hydrate" } }

/-- Claim C4 counterexample: resolving a dependency identifier with no
corresponding descriptor raises no error — `pluginReplaceImportsESM`
happily produces a rewrite rule pointing at the nonexistent artifact
`./nosuchpkg.js`, so the job proceeds and emits a broken reference. -/
theorem c4_unknown_dep_no_error :
    "nosuchpkg" ∉ declaredNames ∧
    pluginReplaceImportsESM rcBogus =
      some (Plugin.replaceImportsESM
        [{ dep := "nosuchpkg", depPath := "./nosuchpkg.js" }] false) := by decide

/-- Claim C4 amended: resolution is total.  Any non-empty external list yields a
replace pass with one rule per dependency, each targeting
`dest (basename dep) format` relative to the output file, whether or not
any descriptor produces that artifact; no failure path exists. -/
theorem c4_amended_resolution_total (rc : RollupOptions) (d : String) (ds : List String)
    (h : rc.extDeps = some (d :: ds)) :
    pluginReplaceImportsESM rc =
      some (Plugin.replaceImportsESM
        ((d :: ds).map fun dep =>
          { dep := dep, depPath := resolveDepPath rc.output.file rc.output.format dep })
        (rc.output.sourcemap.getD false)) := by
  unfold pluginReplaceImportsESM
  rw [h]

/-- Witness for the amended C4 at the bogus-dependency config. -/
theorem c4_amended_resolution_total_witness :
    rcBogus.extDeps = some ("nosuchpkg" :: []) ∧
    pluginReplaceImportsESM rcBogus =
      some (Plugin.replaceImportsESM
        (("nosuchpkg" :: []).map fun dep =>
          { dep := dep, depPath := resolveDepPath rcBogus.output.file rcBogus.output.format dep })
        (rcBogus.output.sourcemap.getD false)) :=
  ⟨rfl, c4_amended_resolution_total rcBogus "nosuchpkg" [] rfl⟩

/-- Claim C5: for every esm config with a non-empty external list, the output
plugin chain is exactly bundleSize, terser, the import-path rewrite pass,
the const-to-let rewrite, then the let-merging rewrite (then any
snippet-supplied plugins) — the import rewrite strictly precedes both
cleanup rules. -/
theorem c5_import_rewrite_before_cleanup (rc : RollupOptions)
    (hf : rc.output.format = esm) (d : String) (ds : List String)
    (hx : rc.extDeps = some (d :: ds)) :
    (makeBundleConfigs rc).output.plugins =
      [Plugin.bundleSize, Plugin.terser,
        Plugin.replaceImportsESM
          ((d :: ds).map fun dep =>
            { dep := dep, depPath := resolveDepPath rc.output.file rc.output.format dep })
          (rc.output.sourcemap.getD false),
        Plugin.constToLetPass, Plugin.letMergePass] ++ rc.output.plugins := by
  simp [makeBundleConfigs, outputPlugins, pluginReplaceImportsESM, hf, hx]

/-- Witness for C5 at the hydrate esm config. -/
theorem c5_import_rewrite_before_cleanup_witness :
    rcHydrateEsm.output.format = esm ∧
    rcHydrateEsm.extDeps = some ("sinuous" :: ["sinuous/htm"]) ∧
    (makeBundleConfigs rcHydrateEsm).output.plugins =
      [Plugin.bundleSize, Plugin.terser,
        Plugin.replaceImportsESM
          [{ dep := "sinuous", depPath := "./sinuous.js" },
           { dep := "sinuous/htm", depPath := "./htm.js" }] false,
        Plugin.constToLetPass, Plugin.letMergePass] := by
  refine ⟨rfl, rfl, ?_⟩
  have h := c5_import_rewrite_before_cleanup rcHydrateEsm rfl "sinuous" ["sinuous/htm"] rfl
  rw [h]
  decide

/-- Claim C3: the hydrate esm job is declared without an explicit `sourcemap`, so
its final output carries a source map (`sourcemap: true` default), yet its
import-path rewrite pass is constructed with position-map updating disabled:
`pluginReplaceImportsESM` computes `Boolean(bundleConfig.output.sourcemap)`
from the pre-expansion config, where the field is still unset. -/
theorem c3_sourcemap_flag_mismatch :
    rcHydrateEsm ∈ bundleSnippets ∧
    (makeBundleConfigs rcHydrateEsm).output.sourcemap = true ∧
    Plugin.replaceImportsESM
        [{ dep := "sinuous", depPath := "./sinuous.js" },
         { dep := "sinuous/htm", depPath := "./htm.js" }] false
      ∈ (makeBundleConfigs rcHydrateEsm).output.plugins := by decide

/-- Claim C7 counterexample: a descriptor with an empty input path is not
rejected — matrix expansion succeeds and produces a job carrying the empty
input, so nothing fails fast. -/
theorem c7_empty_input_not_rejected :
    (mk "x" [esm] { input := "" }).length = 1 ∧
    ((mk "x" [esm] { input := "" }).map fun rc => rc.input) = [""] := by decide

/-- Claim C7 amended: an empty formats list yields zero jobs without error, and
the input path is carried into every produced job unvalidated (an empty
input is not a fail-fast configuration error). -/
theorem c7_amended_empty_formats_no_input_validation (name : String) (cs : ConfigSnippet) :
    mk name [] cs = [] ∧
    ∀ formats, ((mk name formats cs).map fun rc => rc.input) =
      formats.map fun _ => cs.input := by
  refine ⟨rfl, fun formats => ?_⟩
  unfold mk
  rw [List.map_map]
  rfl

/-- Claim C8 counterexample: `bundleNames` records `htm` three times (once per
format of the `htm` descriptor), not exactly once. -/
theorem c8_names_recorded_per_format :
    bundleNames.count "htm" = 3 ∧ bundleNames.count "htm" ≠ 1 := by decide

/-- Claim C8 amended: every declared descriptor's name appears in `bundleNames`,
once per format in that descriptor's formats list, for a total of 42
entries. -/
theorem c8_amended_names_once_per_format :
    (snippetList.all fun e => bundleNames.count e.1 == e.2.1.length) = true ∧
    (snippetList.all fun e => bundleNames.contains e.1) = true ∧
    bundleNames.length = 42 := by decide

/-- Claim C9: every job produced by matrix expansion carries the descriptor's
external list unchanged (same identifiers, same order), and the generated
bundle config keeps it as-is (defaulting an absent list to `[]`), still
unresolved to paths. -/
theorem c9_ext_deps_carried_unchanged (name : String) (formats : List ModuleFormat)
    (cs : ConfigSnippet) :
    ∀ rc ∈ mk name formats cs,
      rc.extDeps = cs.extDeps ∧
      (makeBundleConfigs rc).extDeps = cs.extDeps.getD [] := by
  intro rc hrc
  simp only [mk, List.mem_map] at hrc
  obtain ⟨f, -, rfl⟩ := hrc
  exact ⟨rfl, rfl⟩

/-- Witness for C9 at the hydrate esm config. -/
theorem c9_ext_deps_carried_unchanged_witness :
    rcHydrateEsm ∈ mk "hydrate" [esm, umd, iife] hydrateCS ∧
    rcHydrateEsm.extDeps = hydrateCS.extDeps ∧
    (makeBundleConfigs rcHydrateEsm).extDeps = hydrateCS.extDeps.getD [] := by
  have hmem : rcHydrateEsm ∈ mk "hydrate" [esm, umd, iife] hydrateCS := by decide
  have h := c9_ext_deps_carried_unchanged "hydrate" [esm, umd, iife] hydrateCS
    rcHydrateEsm hmem
  exact ⟨hmem, h.1, h.2⟩

/-- Claim C6 counterexample: the umd/iife cleanup battery is not idempotent — on
`umdCounterInput` the apply-wrapper rule emits text that the
argument-spread rule matches on a second application of the battery. -/
theorem c6_umd_battery_not_idempotent :
    umdBattery (umdBattery umdCounterInput) ≠ umdBattery umdCounterInput := by decide
